import Mathlib

/-!
# Verification of the temutool order-processing pipelines

Shallow embedding of the data transformations of `build_report_v3.py`
(packing-report pipeline) and `make_shipping_csv_v2.py` (shipping-manifest
pipeline), together with proofs of the specification claims about them.

Strings are manipulated the way CPython manipulates `str` values on the data
that occurs here: `str.strip` removes leading/trailing whitespace,
`str.lower` lowercases basic-latin letters (`Char.toLower` matches this on
the ASCII range; the headers and tokens handled by the pipelines contain
only ASCII letters and Japanese characters, which have no case).
-/

namespace TemuTool

/-! ## Python string primitives -/

/-- `str.lower`, character-wise (ASCII range, see module comment). -/
def lowerL (l : List Char) : List Char := l.map Char.toLower

/-- Leading-whitespace removal, the first half of `str.strip`. -/
def frontStrip (l : List Char) : List Char := l.dropWhile Char.isWhitespace

/-- Trailing-whitespace removal, the second half of `str.strip`. -/
def backStrip (l : List Char) : List Char :=
  (l.reverse.dropWhile Char.isWhitespace).reverse

/-- `str.strip`: drop leading and trailing whitespace. -/
def stripL (l : List Char) : List Char := backStrip (frontStrip l)

/-- `s.strip()` on a `String`. -/
def pyStrip (s : String) : String := ⟨stripL s.data⟩

/-- `s.lower()` on a `String`. -/
def pyLower (s : String) : String := ⟨lowerL s.data⟩

/-- `c.strip().lower()` at the character-list level. -/
def normKeyL (l : List Char) : List Char := lowerL (stripL l)

/-- `c.strip().lower()`, the header-normalisation key used by both scripts. -/
def normKey (s : String) : String := ⟨normKeyL s.data⟩

/-! ### Character-level lemmas -/

theorem char_toNat_ofNat {n : Nat} (h : n < 55296) : (Char.ofNat n).toNat = n := by
  rw [Char.ofNat, dif_pos (Or.inl h : Nat.isValidChar n)]
  rfl

theorem char_eq_iff_toNat {a b : Char} : a = b ↔ a.toNat = b.toNat := by
  constructor
  · intro h; rw [h]
  · intro h
    exact Char.ext (UInt32.toNat.inj h)

theorem toLower_toNat (c : Char) :
    (Char.toLower c).toNat =
      if 65 ≤ c.toNat ∧ c.toNat ≤ 90 then c.toNat + 32 else c.toNat := by
  rw [Char.toLower]
  by_cases h : 65 ≤ c.toNat ∧ c.toNat ≤ 90
  · rw [if_pos h, if_pos h, char_toNat_ofNat (by omega)]
  · rw [if_neg h, if_neg h]

theorem toLower_toLower (c : Char) :
    Char.toLower (Char.toLower c) = Char.toLower c := by
  rw [char_eq_iff_toNat, toLower_toNat, toLower_toNat]
  by_cases h : 65 ≤ c.toNat ∧ c.toNat ≤ 90
  · simp only [if_pos h]
    rw [if_neg (by omega)]
  · simp only [if_neg h]

theorem isWhitespace_iff_toNat (c : Char) :
    c.isWhitespace = true ↔
      (c.toNat = 32 ∨ c.toNat = 9 ∨ c.toNat = 13 ∨ c.toNat = 10) := by
  have h32 : (' ' : Char).toNat = 32 := rfl
  have h9 : ('\t' : Char).toNat = 9 := rfl
  have h13 : ('\r' : Char).toNat = 13 := rfl
  have h10 : ('\n' : Char).toNat = 10 := rfl
  simp only [Char.isWhitespace, Bool.or_eq_true, decide_eq_true_eq,
    char_eq_iff_toNat, h32, h9, h13, h10]
  tauto

theorem toLower_of_isWhitespace {c : Char} (h : c.isWhitespace = true) :
    Char.toLower c = c := by
  have hn := (isWhitespace_iff_toNat c).mp h
  rw [char_eq_iff_toNat, toLower_toNat, if_neg (by omega)]

theorem isWhitespace_toLower (c : Char) :
    (Char.toLower c).isWhitespace = c.isWhitespace := by
  by_cases h : c.isWhitespace = true
  · rw [toLower_of_isWhitespace h]
  · rw [Bool.eq_false_iff.mpr h]
    rcases Bool.eq_false_or_eq_true (Char.toLower c).isWhitespace with h' | h'
    · exfalso
      have hn := (isWhitespace_iff_toNat _).mp h'
      rw [toLower_toNat] at hn
      split at hn
      · omega
      · exact h ((isWhitespace_iff_toNat c).mpr hn)
    · exact h'

/-! ### List-level lemmas about strip and lower -/

theorem dropWhile_idem (p : Char → Bool) (l : List Char) :
    (l.dropWhile p).dropWhile p = l.dropWhile p := by
  induction l with
  | nil => rfl
  | cons c t ih =>
    by_cases h : p c
    · rw [List.dropWhile_cons_of_pos h, ih]
    · rw [List.dropWhile_cons_of_neg h, List.dropWhile_cons_of_neg h]

theorem frontStrip_idem (l : List Char) : frontStrip (frontStrip l) = frontStrip l :=
  dropWhile_idem _ l

theorem backStrip_idem (l : List Char) : backStrip (backStrip l) = backStrip l := by
  unfold backStrip
  rw [List.reverse_reverse, dropWhile_idem]

theorem backStrip_append (l : List Char) : ∃ t, l = backStrip l ++ t := by
  obtain ⟨t, ht⟩ := List.dropWhile_suffix (l := l.reverse) (p := Char.isWhitespace)
  refine ⟨t.reverse, ?_⟩
  conv_lhs => rw [← l.reverse_reverse, ← ht]
  rw [List.reverse_append]
  rfl

theorem frontStrip_eq_self_of_append {l p t : List Char}
    (hl : l = p ++ t) (h : frontStrip l = l) : frontStrip p = p := by
  cases p with
  | nil => rfl
  | cons c p' =>
    have hc : ¬ c.isWhitespace = true := by
      intro hws
      have hlen := congrArg List.length h
      rw [hl] at hlen
      simp only [frontStrip, List.cons_append, List.dropWhile_cons_of_pos hws,
        List.length_cons] at hlen
      have hle := (List.dropWhile_suffix (l := p' ++ t) (p := Char.isWhitespace)).sublist.length_le
      omega
    simp [frontStrip, List.dropWhile_cons_of_neg hc]

theorem stripL_idem (l : List Char) : stripL (stripL l) = stripL l := by
  unfold stripL
  obtain ⟨t, ht⟩ := backStrip_append (frontStrip l)
  have h1 : frontStrip (backStrip (frontStrip l)) = backStrip (frontStrip l) :=
    frontStrip_eq_self_of_append ht (frontStrip_idem l)
  rw [h1, backStrip_idem]

theorem dropWhile_lowerL (l : List Char) :
    (lowerL l).dropWhile Char.isWhitespace =
      lowerL (l.dropWhile Char.isWhitespace) := by
  induction l with
  | nil => rfl
  | cons c t ih =>
    show (Char.toLower c :: lowerL t).dropWhile _ = _
    by_cases h : c.isWhitespace
    · rw [List.dropWhile_cons_of_pos (by rw [isWhitespace_toLower]; exact h),
        List.dropWhile_cons_of_pos h, ih]
    · rw [List.dropWhile_cons_of_neg (by rw [isWhitespace_toLower]; exact h),
        List.dropWhile_cons_of_neg h]
      rfl

theorem reverse_lowerL (l : List Char) : (lowerL l).reverse = lowerL l.reverse := by
  simp [lowerL, List.map_reverse]

theorem frontStrip_lowerL (l : List Char) :
    frontStrip (lowerL l) = lowerL (frontStrip l) := dropWhile_lowerL l

theorem backStrip_lowerL (l : List Char) :
    backStrip (lowerL l) = lowerL (backStrip l) := by
  unfold backStrip
  rw [reverse_lowerL, dropWhile_lowerL, reverse_lowerL]

theorem stripL_lowerL (l : List Char) : stripL (lowerL l) = lowerL (stripL l) := by
  unfold stripL
  rw [frontStrip_lowerL, backStrip_lowerL]

theorem lowerL_idem (l : List Char) : lowerL (lowerL l) = lowerL l := by
  unfold lowerL
  rw [List.map_map]
  exact List.map_congr_left fun c _ => toLower_toLower c

theorem normKeyL_idem (l : List Char) : normKeyL (normKeyL l) = normKeyL l := by
  unfold normKeyL
  rw [stripL_lowerL, lowerL_idem, stripL_idem]

theorem normKey_idem (s : String) : normKey (normKey s) = normKey s :=
  congrArg String.mk (normKeyL_idem s.data)

/-! ## Header Normalizer (`COL_ALIAS` tables and first-pass rename)

`build_report_v3.py` and `make_shipping_csv_v2.py` each carry a `COL_ALIAS`
dictionary; both scripts rename every column `c` to
`COL_ALIAS.get(c.strip().lower(), c.strip().lower())`. -/

/-- `COL_ALIAS` of `build_report_v3.py`. -/
def COL_ALIAS_report : List (String × String) :=
  [("order id", "order id"), ("注文id", "order id"),
   ("order item id", "order item id"), ("注文商品id", "order item id"),
   ("product name by customer order", "product name by customer order"),
   ("顧客注文による製品名", "product name by customer order"),
   ("contribution sku", "contribution sku"), ("貢献sku", "contribution sku"),
   ("quantity to ship", "quantity to ship"), ("出荷数量", "quantity to ship"),
   ("recipient name", "recipient name"), ("受取人名", "recipient name")]

/-- `COL_ALIAS` of `make_shipping_csv_v2.py`. -/
def COL_ALIAS_ship : List (String × String) :=
  [("注文id", "order id"), ("order id", "order id"),
   ("注文商品id", "order item id"), ("order item id", "order item id"),
   ("受取人名", "recipient name"), ("recipient name", "recipient name"),
   ("貢献sku", "contribution sku"), ("contribution sku", "contribution sku"),
   ("顧客注文による製品名", "product name by customer order"),
   ("product name by customer order", "product name by customer order"),
   ("出荷数量", "quantity to ship"), ("quantity to ship", "quantity to ship"),
   ("受信者の電話番号", "recipient phone number"),
   ("地区", "district"), ("発送先住所1", "ship address 1")]

/-- Python `dict.get(k, k)` over an association list. -/
def aliasGet (tbl : List (String × String)) (k : String) : String :=
  match tbl.find? (fun p => p.1 == k) with
  | some p => p.2
  | none => k

/-- First-pass header rename of `build_report_v3.read_table`:
`COL_ALIAS.get(c.strip().lower(), c.strip().lower())`. -/
def normHeaderRT (c : String) : String := aliasGet COL_ALIAS_report (normKey c)

/-- First-pass header rename of `make_shipping_csv_v2.read_csv_all_text`. -/
def normHeaderSC (c : String) : String := aliasGet COL_ALIAS_ship (normKey c)

theorem alias_report_vals_fixed : ∀ p ∈ COL_ALIAS_report, normKey p.2 = p.2 := by decide

theorem alias_ship_vals_fixed : ∀ p ∈ COL_ALIAS_ship, normKey p.2 = p.2 := by decide

theorem normKey_normHeaderRT (c : String) :
    normKey (normHeaderRT c) = normHeaderRT c := by
  unfold normHeaderRT aliasGet
  cases h : COL_ALIAS_report.find? (fun p => p.1 == normKey c) with
  | none => exact normKey_idem c
  | some p => exact alias_report_vals_fixed p (List.mem_of_find?_eq_some h)

/-! ## Table Loader: required-header check (`build_report_v3.read_table`) -/

/-- `REQ_LOWER` of `build_report_v3.py`. -/
def REQ_LOWER : List String :=
  ["order id", "order item id", "recipient name", "contribution sku",
   "product name by customer order", "quantity to ship"]

/-- The column list after the first rename (`df.columns` at the check site). -/
def normColumns (hs : List String) : List String := hs.map normHeaderRT

/-- Keys of `col_map = {c.strip().lower(): c for c in df.columns}`. -/
def colMapKeys (hs : List String) : List String := (normColumns hs).map normKey

/-- `miss = [h for h in REQ_LOWER if h not in col_map]`. -/
def requiredMissing (hs : List String) : List String :=
  REQ_LOWER.filter (fun h => !(colMapKeys hs).contains h)

/-- The required-header check of `read_table`: `raise SystemExit` carrying the
missing canonical names and the observed column list, or success with the
observed columns. -/
def readTableCheck (hs : List String) : Except (List String × List String) (List String) :=
  if requiredMissing hs = [] then .ok (normColumns hs)
  else .error (requiredMissing hs, normColumns hs)

theorem colMapKeys_eq_normColumns (hs : List String) :
    colMapKeys hs = normColumns hs := by
  unfold colMapKeys normColumns
  rw [List.map_map]
  have : ∀ c ∈ hs, (normKey ∘ normHeaderRT) c = normHeaderRT c :=
    fun c _ => normKey_normHeaderRT c
  rw [List.map_congr_left this]

/-! ## Claims C8 and C9 -/

/-- C8: header normalization is case- and whitespace-insensitive: any two raw
header spellings that agree after trimming surrounding whitespace and
lowercasing resolve to the same canonical field; `"Order ID"`, `" order id "`
and `"ORDER ID"` all resolve to `"order id"`; and the required-field check
(the only way header input is rejected) depends only on the trimmed,
lowercased spellings, so valid input is never rejected solely because of case
or surrounding-whitespace differences. -/
theorem header_normalization_insensitive :
    (∀ c₁ c₂ : String, normKey c₁ = normKey c₂ → normHeaderRT c₁ = normHeaderRT c₂)
    ∧ normHeaderRT "Order ID" = "order id"
    ∧ normHeaderRT " order id " = "order id"
    ∧ normHeaderRT "ORDER ID" = "order id"
    ∧ (∀ hs₁ hs₂ : List String, hs₁.map normKey = hs₂.map normKey →
        requiredMissing hs₁ = requiredMissing hs₂) := by
  have hmap : ∀ hs : List String,
      hs.map normHeaderRT = (hs.map normKey).map (aliasGet COL_ALIAS_report) := by
    intro hs
    rw [List.map_map]
    rfl
  refine ⟨fun c₁ c₂ h => ?_, by decide, by decide, by decide, fun hs₁ hs₂ h => ?_⟩
  · unfold normHeaderRT
    rw [h]
  · have hcols : normColumns hs₁ = normColumns hs₂ := by
      unfold normColumns
      rw [hmap, hmap, h]
    unfold requiredMissing colMapKeys
    rw [hcols]

/-- Witness for C8 at concrete inputs. -/
theorem header_normalization_insensitive_witness :
    normKey "Order ID" = normKey " order id "
    ∧ normHeaderRT "Order ID" = normHeaderRT " order id " :=
  ⟨by decide, header_normalization_insensitive.1 "Order ID" " order id " (by decide)⟩

theorem requiredMissing_eq_filter (hs : List String) :
    requiredMissing hs = REQ_LOWER.filter (fun r => decide (r ∉ normColumns hs)) := by
  unfold requiredMissing
  rw [colMapKeys_eq_normColumns]
  apply List.filter_congr
  intro r _
  by_cases hm : r ∈ normColumns hs
  · simp [hm]
  · simp [hm]

/-- C9: if after header normalization any of the six required canonical fields
is absent from the columns, `read_table` fails with a `SystemExit` (modelled
as `Except.error`, so no output is produced) carrying exactly the list of
missing canonical names and the full list of columns actually found; if all
six are present, no such error is raised. -/
theorem required_header_check_spec (hs : List String) :
    ((∃ r ∈ REQ_LOWER, r ∉ normColumns hs) →
      readTableCheck hs =
        .error (REQ_LOWER.filter (fun r => decide (r ∉ normColumns hs)), normColumns hs))
    ∧ ((∀ r ∈ REQ_LOWER, r ∈ normColumns hs) → readTableCheck hs = .ok (normColumns hs)) := by
  constructor
  · rintro ⟨r, hr, hnot⟩
    have hne : requiredMissing hs ≠ [] := by
      rw [requiredMissing_eq_filter]
      intro hnil
      rw [List.filter_eq_nil_iff] at hnil
      exact hnil r hr (decide_eq_true hnot)
    unfold readTableCheck
    rw [if_neg hne, requiredMissing_eq_filter]
  · intro hall
    have hnil : requiredMissing hs = [] := by
      rw [requiredMissing_eq_filter, List.filter_eq_nil_iff]
      intro r hr
      simp [hall r hr]
    unfold readTableCheck
    rw [if_pos hnil]

/-- Witness for C9: a header list missing required fields is rejected. -/
theorem required_header_check_spec_witness :
    (∃ r ∈ REQ_LOWER, r ∉ normColumns ["Order ID"])
    ∧ readTableCheck ["Order ID"] =
        .error (REQ_LOWER.filter (fun r => decide (r ∉ normColumns ["Order ID"])),
          normColumns ["Order ID"]) :=
  ⟨by decide, (required_header_check_spec ["Order ID"]).1 (by decide)⟩

/-! ## Table Loader: quantity coercion (`build_report_v3.read_table`, step ❺)

```
q = df["qty"].fillna("").astype(str).str.strip().str.replace(",", "", regex=False)
df["qty"] = pd.to_numeric(q, errors="coerce").fillna(0).astype(int)
``` -/

section StableSort

variable {α : Type}

/-- Insert `a` before the first element `b` with `le a b`. -/
def orderedInsert (le : α → α → Bool) (a : α) : List α → List α
  | [] => [a]
  | b :: l => if le a b then a :: b :: l else b :: orderedInsert le a l

/-- Stable sort by the total preorder `le`. -/
def stableSort (le : α → α → Bool) : List α → List α
  | [] => []
  | a :: l => orderedInsert le a (stableSort le l)

theorem orderedInsert_perm (le : α → α → Bool) (a : α) (l : List α) :
    List.Perm (orderedInsert le a l) (a :: l) := by
  induction l with
  | nil => exact List.Perm.refl _
  | cons b l ih =>
    rw [orderedInsert]
    by_cases h : le a b
    · rw [if_pos h]
    · rw [if_neg h]
      exact (ih.cons b).trans (List.Perm.swap a b l)

theorem stableSort_perm (le : α → α → Bool) (l : List α) :
    List.Perm (stableSort le l) l := by
  induction l with
  | nil => exact List.Perm.refl _
  | cons a l ih =>
    rw [stableSort]
    exact (orderedInsert_perm le a (stableSort le l)).trans (ih.cons a)

theorem mem_stableSort (le : α → α → Bool) (l : List α) (x : α) :
    x ∈ stableSort le l ↔ x ∈ l :=
  (stableSort_perm le l).mem_iff

theorem mem_orderedInsert (le : α → α → Bool) (a x : α) (l : List α) :
    x ∈ orderedInsert le a l ↔ x = a ∨ x ∈ l :=
  ((orderedInsert_perm le a l).mem_iff).trans (List.mem_cons)

theorem sorted_orderedInsert (le : α → α → Bool)
    (htot : ∀ a b, le a b || le b a)
    (htrans : ∀ a b c, le a b = true → le b c = true → le a c = true)
    (a : α) (l : List α) (h : l.Pairwise (fun x y => le x y = true)) :
    (orderedInsert le a l).Pairwise (fun x y => le x y = true) := by
  induction l with
  | nil => exact List.pairwise_singleton _ a
  | cons b l ih =>
    rw [orderedInsert]
    rcases List.pairwise_cons.mp h with ⟨hb, hl⟩
    by_cases hab : le a b
    · rw [if_pos hab]
      refine List.pairwise_cons.mpr ⟨?_, h⟩
      intro x hx
      rcases List.mem_cons.mp hx with rfl | hx
      · exact hab
      · exact htrans a b x hab (hb x hx)
    · rw [if_neg hab]
      refine List.pairwise_cons.mpr ⟨?_, ih hl⟩
      intro x hx
      rcases (mem_orderedInsert le a x l).mp hx with heq | hx
      · rw [heq]
        rcases Bool.or_eq_true_iff.mp (htot a b) with h1 | h1
        · exact absurd h1 hab
        · exact h1
      · exact hb x hx

theorem sorted_stableSort (le : α → α → Bool)
    (htot : ∀ a b, le a b || le b a)
    (htrans : ∀ a b c, le a b = true → le b c = true → le a c = true)
    (l : List α) : (stableSort le l).Pairwise (fun x y => le x y = true) := by
  induction l with
  | nil => exact List.Pairwise.nil
  | cons a l ih =>
    rw [stableSort]
    exact sorted_orderedInsert le htot htrans a _ ih

end StableSort

/-! ## Aggregation Engine (`build_report_v3.build_detail`)

```
detail = df.groupby(["jan","order_id","order_item_id","recipient","product"],
                    as_index=False)["qty"].sum()
detail["global_lines"] = detail.groupby("order_id")["product"].transform("count")
detail["jan_lines"] = detail.groupby(["jan","order_id"])["product"].transform("count")
return detail.sort_values(["jan","order_id","order_item_id","recipient","product"],
                          kind="stable")
```

`groupby(..., as_index=False)` (default `sort=True`) produces one row per
distinct key tuple, in ascending lexicographic key order, with the group's
qty sum; `transform("count")` counts the rows of the enclosing group (the
`product` field is a non-null string on every row, so the count is the group
size). String ordering is code-point lexicographic, as in Python. -/

/-- One loaded row of the packing-report input, after `read_table`. -/
structure RawRow where
  order_id : String
  order_item_id : String
  recipient : String
  jan : String
  product : String
  qty : Int
deriving DecidableEq

/-- The five-key grouping tuple `(jan, order_id, order_item_id, recipient, product)`. -/
abbrev Key5 := String × String × String × String × String

def key5 (r : RawRow) : Key5 := (r.jan, r.order_id, r.order_item_id, r.recipient, r.product)

/-- Code-point lexicographic `<` on character lists (Python string `<`). -/
def ltChars : List Char → List Char → Bool
  | [], [] => false
  | [], _ :: _ => true
  | _ :: _, [] => false
  | a :: as, b :: bs => if a = b then ltChars as bs else decide (a < b)

/-- Python string `<`. -/
def strLt (a b : String) : Bool := ltChars a.data b.data

/-- Ascending lexicographic comparison of five-key tuples, used by
`groupby(sort=True)` and by `sort_values` on the same five columns. -/
def leKey5 (a b : Key5) : Bool :=
  if a.1 ≠ b.1 then strLt a.1 b.1
  else if a.2.1 ≠ b.2.1 then strLt a.2.1 b.2.1
  else if a.2.2.1 ≠ b.2.2.1 then strLt a.2.2.1 b.2.2.1
  else if a.2.2.2.1 ≠ b.2.2.2.1 then strLt a.2.2.2.1 b.2.2.2.1
  else strLt a.2.2.2.2 b.2.2.2.2 || a.2.2.2.2 == b.2.2.2.2

/-- Distinct-key scan: skip keys already seen. -/
def uniqKeysAux (seen : List Key5) : List Key5 → List Key5
  | [] => []
  | k :: ks => if k ∈ seen then uniqKeysAux seen ks else k :: uniqKeysAux (k :: seen) ks

/-- The distinct key tuples, first occurrence first. -/
def uniqKeys (l : List Key5) : List Key5 := uniqKeysAux [] l

/-- `groupby` key set in ascending lexicographic order. -/
def aggKeys (rows : List RawRow) : List Key5 := stableSort leKey5 (uniqKeys (rows.map key5))

/-- The qty sum of the group of key `k`. -/
def groupQty (rows : List RawRow) (k : Key5) : Int :=
  ((rows.filter (fun r => decide (key5 r = k))).map RawRow.qty).sum

/-- The grouped rows `(key, qty-sum)` of `detail` before the derived counts. -/
def aggLines (rows : List RawRow) : List (Key5 × Int) :=
  (aggKeys rows).map (fun k => (k, groupQty rows k))

/-- One row of the `detail` frame returned by `build_detail`. -/
structure DetailRow where
  jan : String
  order_id : String
  order_item_id : String
  recipient : String
  product : String
  qty : Int
  global_lines : Nat
  jan_lines : Nat
deriving DecidableEq

/-- The two `transform("count")` columns: per-`order_id` group size and
per-`(jan, order_id)` group size over the grouped rows. -/
def attachCounts (l : List (Key5 × Int)) : List DetailRow :=
  l.map (fun p =>
    { jan := p.1.1, order_id := p.1.2.1, order_item_id := p.1.2.2.1,
      recipient := p.1.2.2.2.1, product := p.1.2.2.2.2, qty := p.2,
      global_lines := l.countP (fun q => decide (q.1.2.1 = p.1.2.1)),
      jan_lines := l.countP (fun q => decide (q.1.1 = p.1.1 ∧ q.1.2.1 = p.1.2.1)) })

/-- The final `sort_values` comparison of `build_detail` (same five keys). -/
def leDetail (a b : DetailRow) : Bool :=
  leKey5 (a.jan, a.order_id, a.order_item_id, a.recipient, a.product)
    (b.jan, b.order_id, b.order_item_id, b.recipient, b.product)

/-- `build_detail` of `build_report_v3.py`. -/
def build_detail (rows : List RawRow) : List DetailRow :=
  stableSort leDetail (attachCounts (aggLines rows))

theorem mem_uniqKeysAux (l : List Key5) :
    ∀ (seen : List Key5) (a : Key5), a ∈ uniqKeysAux seen l ↔ a ∈ l ∧ a ∉ seen := by
  induction l with
  | nil => intro seen a; simp [uniqKeysAux]
  | cons k ks ih =>
    intro seen a
    rw [uniqKeysAux]
    by_cases hk : k ∈ seen
    · rw [if_pos hk, ih]
      by_cases hak : a = k
      · subst hak
        simp [hk]
      · simp [hak]
    · rw [if_neg hk]
      by_cases hak : a = k
      · subst hak
        simp [hk]
      · simp only [List.mem_cons, ih, hak, false_or]

theorem nodup_uniqKeysAux (l : List Key5) :
    ∀ seen : List Key5, (uniqKeysAux seen l).Nodup := by
  induction l with
  | nil => intro seen; exact List.nodup_nil
  | cons k ks ih =>
    intro seen
    rw [uniqKeysAux]
    by_cases hk : k ∈ seen
    · rw [if_pos hk]; exact ih seen
    · rw [if_neg hk]
      refine List.Nodup.cons (fun hmem => ?_) (ih (k :: seen))
      exact ((mem_uniqKeysAux ks (k :: seen) k).mp hmem).2 (List.mem_cons_self k seen)

theorem mem_uniqKeys (l : List Key5) (a : Key5) : a ∈ uniqKeys l ↔ a ∈ l := by
  unfold uniqKeys
  rw [mem_uniqKeysAux]
  simp

theorem nodup_uniqKeys (l : List Key5) : (uniqKeys l).Nodup := nodup_uniqKeysAux l []

theorem sum_map_filter_split (p : RawRow → Bool) (l : List RawRow) :
    ((l.filter p).map RawRow.qty).sum + ((l.filter (fun r => !p r)).map RawRow.qty).sum
      = (l.map RawRow.qty).sum := by
  induction l with
  | nil => rfl
  | cons r t ih =>
    by_cases h : p r
    · rw [List.filter_cons_of_pos h, List.filter_cons_of_neg (by simp [h])]
      simp only [List.map_cons, List.sum_cons]
      omega
    · rw [List.filter_cons_of_neg (by simpa using h),
        List.filter_cons_of_pos (by simp [Bool.eq_false_iff.mpr h])]
      simp only [List.map_cons, List.sum_cons]
      omega

theorem group_partition :
    ∀ (ks : List Key5) (rows : List RawRow), ks.Nodup →
      (∀ r ∈ rows, key5 r ∈ ks) →
      (ks.map (groupQty rows)).sum = (rows.map RawRow.qty).sum := by
  intro ks
  induction ks with
  | nil =>
    intro rows _ hcover
    cases rows with
    | nil => rfl
    | cons r t => exact absurd (hcover r (List.mem_cons_self r t)) (List.not_mem_nil _)
  | cons k ks ih =>
    intro rows hnd hcover
    have hsplit := sum_map_filter_split (fun r => decide (key5 r = k)) rows
    have hcongr : ks.map (groupQty rows)
        = ks.map (groupQty (rows.filter (fun r => !decide (key5 r = k)))) := by
      apply List.map_congr_left
      intro k' hk'
      have hkk : k' ≠ k := fun he => (List.nodup_cons.mp hnd).1 (he ▸ hk')
      have hfe : rows.filter (fun a => decide (key5 a = k') && !decide (key5 a = k))
          = rows.filter (fun r => decide (key5 r = k')) := by
        apply List.filter_congr
        intro r _
        by_cases hr : key5 r = k'
        · simp [hr, hkk]
        · simp [hr]
      unfold groupQty
      rw [List.filter_filter, hfe]
    have hih := ih (rows.filter (fun r => !decide (key5 r = k))) (List.nodup_cons.mp hnd).2
      (fun r hr => by
        have hm := List.mem_filter.mp hr
        have hks := hcover r hm.1
        rcases List.mem_cons.mp hks with he | hks'
        · exfalso
          have := hm.2
          rw [he] at this
          simp at this
        · exact hks')
    simp only [List.map_cons, List.sum_cons]
    rw [hcongr, hih]
    have hq : groupQty rows k = ((rows.filter (fun r => decide (key5 r = k))).map RawRow.qty).sum := rfl
    omega

/-! ## Claim C4 -/

/-- C4: the Aggregation Engine preserves total quantity: the sum of `qty`
over the rows of `build_detail` equals the sum of `qty` over all loaded raw
rows. -/
theorem aggregation_preserves_total_qty (rows : List RawRow) :
    ((build_detail rows).map DetailRow.qty).sum = (rows.map RawRow.qty).sum := by
  have h1 : ((build_detail rows).map DetailRow.qty).sum
      = ((attachCounts (aggLines rows)).map DetailRow.qty).sum :=
    ((stableSort_perm leDetail (attachCounts (aggLines rows))).map DetailRow.qty).sum_eq
  have h2 : (attachCounts (aggLines rows)).map DetailRow.qty = (aggLines rows).map Prod.snd := by
    unfold attachCounts
    rw [List.map_map]
    exact List.map_congr_left fun p _ => rfl
  have h3 : (aggLines rows).map Prod.snd = (aggKeys rows).map (groupQty rows) := by
    unfold aggLines
    rw [List.map_map]
    exact List.map_congr_left fun k _ => rfl
  have h4 : ((aggKeys rows).map (groupQty rows)).sum
      = ((uniqKeys (rows.map key5)).map (groupQty rows)).sum :=
    ((stableSort_perm leKey5 (uniqKeys (rows.map key5))).map (groupQty rows)).sum_eq
  have h5 := group_partition (uniqKeys (rows.map key5)) rows (nodup_uniqKeys _)
    (fun r hr => (mem_uniqKeys _ _).mpr (List.mem_map_of_mem key5 hr))
  rw [h1, h2, h3, h4, h5]

/-! ## Claim C5 -/

/-- C5: for every row of `build_detail`, the count of distinct aggregated
lines sharing both `jan` and `order_id` (`jan_lines`) is at most the count of
distinct aggregated lines sharing `order_id` (`global_lines`). -/
theorem jan_lines_le_global_lines (rows : List RawRow) (d : DetailRow)
    (hd : d ∈ build_detail rows) : d.jan_lines ≤ d.global_lines := by
  unfold build_detail at hd
  rw [mem_stableSort] at hd
  unfold attachCounts at hd
  rw [List.mem_map] at hd
  obtain ⟨p, hp, rfl⟩ := hd
  exact List.countP_mono_left (fun q hq h => decide_eq_true (of_decide_eq_true h).2)

/-- Witness for C5 on a concrete dataset. -/
theorem jan_lines_le_global_lines_witness :
    (⟨"J", "O1", "I1", "R", "P", 2, 1, 1⟩ : DetailRow).jan_lines
      ≤ (⟨"J", "O1", "I1", "R", "P", 2, 1, 1⟩ : DetailRow).global_lines :=
  jan_lines_le_global_lines [⟨"O1", "I1", "R", "J", "P", 2⟩]
    ⟨"J", "O1", "I1", "R", "P", 2, 1, 1⟩ (by decide)

/-! ## Phone normalization (`make_shipping_csv_v2.normalize_phone`)

```
t = str(val)
t = t.replace("+81", "")
t = re.sub(r"\s+", "-", t.strip())
```
-/

/-- `t.replace("+81", "")`: scan left to right, removing each (non-overlapping)
occurrence of the three-character token. -/
def removeP81 : List Char → List Char
  | '+' :: '8' :: '1' :: rest => removeP81 rest
  | c :: rest => c :: removeP81 rest
  | [] => []

/-- The `re.sub(r"\s+", "-", ·)` scanner.  The flag records whether the scanner
is inside a whitespace run whose hyphen has already been emitted. -/
def subWsGo : Bool → List Char → List Char
  | _, [] => []
  | inRun, c :: cs =>
    if c.isWhitespace then
      if inRun then subWsGo true cs else '-' :: subWsGo true cs
    else c :: subWsGo false cs

/-- `re.sub(r"\s+", "-", l)`: replace each maximal whitespace run by `'-'`. -/
def subWsL (l : List Char) : List Char := subWsGo false l

/-- `normalize_phone` of `make_shipping_csv_v2.py` (its `None` guard is the
identity on the string cells that occur here). -/
def normalize_phone (s : String) : String := ⟨subWsL (stripL (removeP81 s.data))⟩

/-- The maximal non-whitespace chunks of a character list, in order
(formalising the spec's "maximal run of whitespace" boundaries). -/
def wordsWs : List Char → List (List Char)
  | [] => []
  | c :: cs =>
    if c.isWhitespace then wordsWs cs
    else (c :: cs.takeWhile (fun d => !d.isWhitespace)) :: wordsWs (cs.dropWhile (fun d => !d.isWhitespace))
termination_by l => l.length
decreasing_by
  · exact Nat.lt_succ_of_le (Nat.le_refl _)
  · exact Nat.lt_succ_of_le (List.dropWhile_suffix _).sublist.length_le

/-- Join words with single hyphens (the spec-side reading of "every maximal
run of whitespace becomes a single hyphen"). -/
def joinWords : List (List Char) → List Char
  | [] => []
  | [w] => w
  | w :: ws => w ++ '-' :: joinWords ws

theorem joinWords_cons (w : List Char) (ws : List (List Char)) (h : ws ≠ []) :
    joinWords (w :: ws) = w ++ '-' :: joinWords ws := by
  cases ws with
  | nil => exact absurd rfl h
  | cons x xs => rfl

theorem dropWhile_head_not (p : Char → Bool) :
    ∀ (l : List Char) (d : Char) (ds : List Char), l.dropWhile p = d :: ds → p d = false := by
  intro l
  induction l with
  | nil => intro d ds h; exact absurd h (by simp)
  | cons c t ih =>
    intro d ds h
    by_cases hc : p c
    · rw [List.dropWhile_cons_of_pos hc] at h
      exact ih d ds h
    · rw [List.dropWhile_cons_of_neg hc] at h
      obtain ⟨rfl, -⟩ := List.cons.inj h
      exact Bool.eq_false_iff.mpr hc

theorem subWsGo_nonws (w r : List Char) (hw : ∀ c ∈ w, c.isWhitespace = false) :
    subWsGo false (w ++ r) = w ++ subWsGo false r := by
  induction w with
  | nil => rfl
  | cons c t ih =>
    rw [List.cons_append, subWsGo, if_neg (by rw [hw c (List.mem_cons_self c t)]; simp)]
    rw [ih fun x hx => hw x (List.mem_cons_of_mem c hx)]
    rfl

theorem subWsGo_all_nonws (l : List Char) (h : ∀ c ∈ l, c.isWhitespace = false) :
    subWsGo false l = l := by
  induction l with
  | nil => rfl
  | cons c t ih =>
    rw [subWsGo, if_neg (by rw [h c (List.mem_cons_self c t)]; simp)]
    rw [ih fun x hx => h x (List.mem_cons_of_mem c hx)]

theorem joinWords_single (w : List Char) : joinWords [w] = w := rfl

theorem subWsGo_true_eq (r : List Char) :
    subWsGo true r = subWsGo false (r.dropWhile Char.isWhitespace) := by
  induction r with
  | nil => rfl
  | cons c cs ih =>
    by_cases hc : c.isWhitespace
    · rw [subWsGo, if_pos hc, if_pos rfl, ih, List.dropWhile_cons_of_pos hc]
    · rw [subWsGo, if_neg hc, List.dropWhile_cons_of_neg hc, subWsGo, if_neg hc]

theorem subWsGo_false_ws (d : Char) (ds : List Char) (hd : d.isWhitespace = true) :
    subWsGo false (d :: ds) = '-' :: subWsGo false (ds.dropWhile Char.isWhitespace) := by
  rw [subWsGo, if_pos hd, if_neg (by simp), subWsGo_true_eq]

theorem wordsWs_nil : wordsWs [] = [] := by rw [wordsWs]

theorem wordsWs_dropWhile (l : List Char) :
    wordsWs (l.dropWhile Char.isWhitespace) = wordsWs l := by
  induction l with
  | nil => rfl
  | cons c cs ih =>
    by_cases hc : c.isWhitespace
    · rw [List.dropWhile_cons_of_pos hc, ih, wordsWs, if_pos hc]
    · rw [List.dropWhile_cons_of_neg hc]

theorem wordsWs_cons_ne_nil (c : Char) (cs : List Char) (hc : c.isWhitespace = false) :
    wordsWs (c :: cs) ≠ [] := by
  rw [wordsWs, if_neg (by rw [hc]; simp)]
  simp

theorem subWs_eq_joinWords_aux :
    ∀ (n : Nat) (l : List Char), l.length ≤ n →
      (∀ c, l.head? = some c → c.isWhitespace = false) →
      (∀ c, l.getLast? = some c → c.isWhitespace = false) →
      subWsGo false l = joinWords (wordsWs l) := by
  intro n
  induction n with
  | zero =>
    intro l hlen _ _
    rw [List.length_eq_zero.mp (Nat.le_zero.mp hlen), wordsWs_nil]
    rfl
  | succ n ih =>
    intro l hlen hhead hlast
    cases l with
    | nil => rw [wordsWs_nil]; rfl
    | cons c cs =>
      have hc : c.isWhitespace = false := hhead c rfl
      have hsplit : cs.takeWhile (fun x => !x.isWhitespace)
          ++ cs.dropWhile (fun x => !x.isWhitespace) = cs :=
        List.takeWhile_append_dropWhile (p := fun x => !x.isWhitespace) (l := cs)
      have hwordseq : wordsWs (c :: cs)
          = (c :: cs.takeWhile (fun x => !x.isWhitespace))
            :: wordsWs (cs.dropWhile (fun x => !x.isWhitespace)) := by
        rw [wordsWs, if_neg (by rw [hc]; simp)]
      have hwmem : ∀ x ∈ cs.takeWhile (fun x => !x.isWhitespace), x.isWhitespace = false := by
        intro x hx
        have := List.mem_takeWhile_imp hx
        simpa using this
      have hgo : subWsGo false (c :: cs) = c :: subWsGo false cs := by
        rw [subWsGo, if_neg (by rw [hc]; simp)]
      cases hr : cs.dropWhile (fun x => !x.isWhitespace) with
      | nil =>
        have hcs2 : cs = cs.takeWhile (fun x => !x.isWhitespace) := by
          conv_lhs => rw [← hsplit]
          rw [hr, List.append_nil]
        have hsub : subWsGo false cs = cs := by
          refine subWsGo_all_nonws cs (fun x hx => hwmem x ?_)
          rw [← hcs2]
          exact hx
        rw [hgo, hwordseq, hr, wordsWs_nil, joinWords_single, hsub, ← hcs2]
      | cons d ds =>
        have hd : d.isWhitespace = true := by
          have := dropWhile_head_not (fun x => !x.isWhitespace) cs d ds hr
          simpa using this
        have hcs' : cs = cs.takeWhile (fun x => !x.isWhitespace) ++ (d :: ds) := by
          rw [← hr]
          exact hsplit.symm
      -- the last element of the whole list lives in `d :: ds`
        have hccw : c :: cs = (c :: cs.takeWhile (fun x => !x.isWhitespace)) ++ (d :: ds) := by
          rw [List.cons_append, ← hcs']
        have hlastr : ∀ x, (d :: ds).getLast? = some x → x.isWhitespace = false := by
          intro x hx
          apply hlast
          rw [hccw, List.getLast?_append_of_ne_nil _ (by simp)]
          exact hx
        obtain ⟨t, ht⟩ := List.dropWhile_suffix (l := ds) (p := Char.isWhitespace)
        have hr'ne : ds.dropWhile Char.isWhitespace ≠ [] := by
          intro hnil
          have hall : ∀ x ∈ ds, x.isWhitespace = true := fun x hx => by
            simpa using List.dropWhile_eq_nil_iff.mp hnil x hx
          have hgl := List.getLast?_eq_getLast (d :: ds) (by simp)
          have hxf := hlastr _ hgl
          have hmem := List.mem_of_mem_getLast? hgl
          rcases List.mem_cons.mp hmem with heq | hmem'
          · rw [heq, hd] at hxf
            exact Bool.noConfusion hxf
          · rw [hall _ hmem'] at hxf
            exact Bool.noConfusion hxf
        cases hr' : ds.dropWhile Char.isWhitespace with
        | nil => exact absurd hr' hr'ne
        | cons e es =>
          have he : e.isWhitespace = false :=
            dropWhile_head_not Char.isWhitespace ds e es hr'
          have hdsne : ds ≠ [] := by
            rw [← ht, hr']
            simp
          have hlast1 : ds.getLast? = (e :: es).getLast? := by
            conv_lhs => rw [← ht, hr']
            exact List.getLast?_append_of_ne_nil t (by simp)
          have hlast2 : (d :: ds).getLast? = (e :: es).getLast? := by
            rw [show d :: ds = [d] ++ ds from rfl,
              List.getLast?_append_of_ne_nil [d] hdsne, hlast1]
          -- induction hypothesis on the remainder
          have hlds := (List.dropWhile_suffix (l := ds) (p := Char.isWhitespace)).sublist.length_le
          rw [hr'] at hlds
          have hlcs := congrArg List.length hcs'
          simp only [List.length_append, List.length_cons] at hlcs
          have hlen' : cs.length + 1 ≤ n + 1 := by simpa using hlen
          have hlen2 : (e :: es).length ≤ n := by
            simp only [List.length_cons] at hlds ⊢
            omega
          have IH := ih (e :: es) hlen2
            (fun x hx => by rw [← Option.some.inj hx]; exact he)
            (fun x hx => hlastr x (by rw [hlast2]; exact hx))
          -- assemble both sides
          rw [hgo, hwordseq, hr]
          have hw1 : wordsWs (d :: ds) = wordsWs (e :: es) := by
            rw [wordsWs, if_pos hd, ← wordsWs_dropWhile ds, hr']
          rw [hw1, joinWords_cons _ _ (wordsWs_cons_ne_nil e es he), ← IH]
          have hcsw : subWsGo false cs
              = cs.takeWhile (fun x => !x.isWhitespace) ++ ('-' :: subWsGo false (e :: es)) := by
            conv_lhs => rw [hcs']
            rw [subWsGo_nonws _ _ hwmem, subWsGo_false_ws d ds hd, hr']
          rw [hcsw]
          rfl


theorem stripL_head_not_ws (l : List Char) :
    ∀ c, (stripL l).head? = some c → c.isWhitespace = false := by
  intro c hc
  obtain ⟨t, ht⟩ := backStrip_append (frontStrip l)
  have ht' : frontStrip l = stripL l ++ t := ht
  cases hs : stripL l with
  | nil =>
    rw [hs] at hc
    exact Option.noConfusion hc
  | cons e es =>
    rw [hs] at hc
    rw [← Option.some.inj hc]
    rw [hs] at ht'
    exact dropWhile_head_not Char.isWhitespace l e (es ++ t) ht'

theorem stripL_getLast_not_ws (l : List Char) :
    ∀ c, (stripL l).getLast? = some c → c.isWhitespace = false := by
  intro c hc
  have h1 : (stripL l).getLast? = ((frontStrip l).reverse.dropWhile Char.isWhitespace).head? := by
    show (backStrip (frontStrip l)).getLast? = _
    unfold backStrip
    exact List.getLast?_reverse _
  rw [h1] at hc
  cases hz : (frontStrip l).reverse.dropWhile Char.isWhitespace with
  | nil =>
    rw [hz] at hc
    exact Option.noConfusion hc
  | cons e es =>
    rw [hz] at hc
    rw [← Option.some.inj hc]
    exact dropWhile_head_not Char.isWhitespace _ e es hz

/-! ## Manifest dataset frame and the column steps of `make_shipping_csv_v2.main` -/

/-- The second raw dataset as loaded by `read_csv_all_text`: a header list and
one list of text cells per row. -/
structure DFrame where
  cols : List String
  rows : List (List String)
deriving DecidableEq

/-- `find_col_case_insensitive(df, name)`: the first column label whose
`c.lower().strip()` equals `name.lower().strip()`, `None` otherwise.  Column
labels are unique in these frames, so we return the index of the first match;
a matching label normalises to a nonempty name and hence is a nonempty
string, so Python's `if col:` truthiness test coincides with `isSome`. -/
def find_col_case_insensitive (df : DFrame) (name : String) : Option Nat :=
  df.cols.findIdx? (fun c => pyStrip (pyLower c) == pyStrip (pyLower name))

/-- Cell access in a row (all cells are text; absent cells read as `""`). -/
def getCell (r : List String) (i : Nat) : String := r.getD i ""

/-- Phone normalisation step of `main`:
`orig[phone_col] = orig[phone_col].map(normalize_phone)` when the phone
column is present, otherwise a no-op. -/
def phoneStep (df : DFrame) : DFrame :=
  match find_col_case_insensitive df "recipient phone number" with
  | none => df
  | some i => { df with rows := df.rows.map (fun r => r.set i (normalize_phone (getCell r i))) }

/-- District-fallback step of `main`: where the district cell strips to `""`,
copy the ship-address-1 cell, only when both columns are present. -/
def districtStep (df : DFrame) : DFrame :=
  match find_col_case_insensitive df "district",
      find_col_case_insensitive df "ship address 1" with
  | some di, some ai =>
      { df with rows := df.rows.map (fun r =>
          if pyStrip (getCell r di) = "" then r.set di (getCell r ai) else r) }
  | _, _ => df

/-! ## Claim C6 -/

/-- C6: `normalize_phone` removes all literal occurrences of the token
`"+81"` (one left-to-right replace-all pass) and replaces every maximal run
of whitespace in the trimmed remainder with a single hyphen — equivalently,
the result is the trimmed remainder's maximal non-whitespace chunks joined by
single hyphens; in particular `"+81 90 1234 5678"` normalizes to
`"90-1234-5678"`; and when no phone column is present the dataset is left
unchanged. -/
theorem normalize_phone_spec :
    (∀ s : String,
      normalize_phone s = ⟨joinWords (wordsWs (stripL (removeP81 s.data)))⟩)
    ∧ normalize_phone "+81 90 1234 5678" = "90-1234-5678"
    ∧ (∀ df : DFrame,
        find_col_case_insensitive df "recipient phone number" = none →
        phoneStep df = df) := by
  refine ⟨fun s => ?_, by decide, fun df h => ?_⟩
  · apply congrArg String.mk
    exact subWs_eq_joinWords_aux (stripL (removeP81 s.data)).length _ (Nat.le_refl _)
      (stripL_head_not_ws _) (stripL_getLast_not_ws _)
  · unfold phoneStep
    rw [h]

/-- Witness for C6's no-phone-column no-op at a concrete frame. -/
theorem normalize_phone_spec_witness :
    find_col_case_insensitive ⟨["order id"], [["A1"]]⟩ "recipient phone number" = none
    ∧ phoneStep ⟨["order id"], [["A1"]]⟩ = ⟨["order id"], [["A1"]]⟩ :=
  ⟨by decide, normalize_phone_spec.2.2 ⟨["order id"], [["A1"]]⟩ (by decide)⟩

/-! ## Claim C7 -/

/-- C7: when both a district column and a ship-address-1 column are present,
the district fallback sets the district cell to the ship-address-1 value on
exactly those rows whose district is blank after trimming, leaves rows with a
non-blank district entirely unchanged, changes no other column of any row,
and preserves the column list and the row count; when either column is
absent, no row is modified. -/
theorem district_fallback_spec (df : DFrame)
    (hw : ∀ r ∈ df.rows, r.length = df.cols.length) :
    (∀ di ai, find_col_case_insensitive df "district" = some di →
      find_col_case_insensitive df "ship address 1" = some ai →
      (districtStep df).cols = df.cols
      ∧ (districtStep df).rows.length = df.rows.length
      ∧ (∀ i, i < df.rows.length →
          (pyStrip (getCell (df.rows.getD i []) di) = "" →
            getCell ((districtStep df).rows.getD i []) di
              = getCell (df.rows.getD i []) ai
            ∧ ∀ j, j ≠ di →
              getCell ((districtStep df).rows.getD i []) j
                = getCell (df.rows.getD i []) j)
          ∧ (pyStrip (getCell (df.rows.getD i []) di) ≠ "" →
            (districtStep df).rows.getD i [] = df.rows.getD i [])))
    ∧ ((find_col_case_insensitive df "district" = none
        ∨ find_col_case_insensitive df "ship address 1" = none) →
      districtStep df = df) := by
  refine ⟨fun di ai hdi hai => ?_, fun h => ?_⟩
  · have hds : districtStep df = { df with rows := df.rows.map (fun r =>
        if pyStrip (getCell r di) = "" then r.set di (getCell r ai) else r) } := by
      unfold districtStep
      rw [hdi, hai]
    refine ⟨by rw [hds], by rw [hds]; exact List.length_map _ _, fun i hi => ?_⟩
    obtain ⟨r, hr⟩ : ∃ r, df.rows[i]? = some r := ⟨_, List.getElem?_eq_getElem hi⟩
    have hrmem : r ∈ df.rows := List.getElem?_mem hr
    have hrlen : r.length = df.cols.length := hw r hrmem
    have hdilt : di < df.cols.length := (List.findIdx?_eq_some_iff_findIdx_eq.mp hdi).1
    have hgd : df.rows.getD i [] = r := by
      rw [List.getD_eq_getElem?_getD, hr]
      rfl
    have hmap : (districtStep df).rows.getD i []
        = (if pyStrip (getCell r di) = "" then r.set di (getCell r ai) else r) := by
      rw [hds]
      show (df.rows.map _).getD i [] = _
      rw [List.getD_eq_getElem?_getD, List.getElem?_map, hr]
      rfl
    rw [hgd]
    constructor
    · intro hblank
      rw [hmap, if_pos hblank]
      constructor
      · show (r.set di (getCell r ai)).getD di "" = getCell r ai
        rw [List.getD_eq_getElem?_getD,
          List.getElem?_set_self (by rw [hrlen]; exact hdilt)]
        rfl
      · intro j hj
        show (r.set di (getCell r ai)).getD j "" = r.getD j ""
        rw [List.getD_eq_getElem?_getD, List.getElem?_set_ne (fun he => hj he.symm),
          ← List.getD_eq_getElem?_getD]
    · intro hnb
      rw [hmap, if_neg hnb]
  · rcases h with h | h
    · cases hai : find_col_case_insensitive df "ship address 1" with
      | none =>
        unfold districtStep
        rw [h, hai]
      | some a =>
        unfold districtStep
        rw [h, hai]
    · cases hdi : find_col_case_insensitive df "district" with
      | none =>
        unfold districtStep
        rw [h, hdi]
      | some d =>
        unfold districtStep
        rw [h, hdi]

/-- Witness for C7: a blank district cell receives the ship-address-1 value. -/
theorem district_fallback_spec_witness :
    getCell ((districtStep ⟨["District", "Ship Address 1"],
        [["", "Tokyo"], ["Osaka", "X"]]⟩).rows.getD 0 []) 0 = "Tokyo" := by
  have h := ((district_fallback_spec
      ⟨["District", "Ship Address 1"], [["", "Tokyo"], ["Osaka", "X"]]⟩
      (by decide)).1 0 1 (by decide) (by decide)).2.2 0 (by decide)
  rw [(h.1 (by decide)).1]
  decide

/-! ## Manifest Builder: re-sequencing and deduplication
(`make_shipping_csv_v2.main`, lines 113-138)

```
order_seq = extract_order_sequence(report_xlsx)
order_set = set(orig["order id"].astype(str))
seq_filtered = [oid for oid in order_seq if oid in order_set]
order_rank = {oid: i for i, oid in enumerate(seq_filtered)}
orig["_rank"] = orig["order id"].astype(str).map(lambda x: order_rank.get(x, 10**12))
orig["_idx"] = range(len(orig))
sorted_df = orig.sort_values(by=["_rank","_idx"], kind="stable")
counts = sorted_df["order id"].astype(str).value_counts()
multi_ids = set(counts[counts > 1].index)
... keep first occurrence of each multi id ...
```

The steps below are generic in the row payload `ρ` with an order-id
accessor `oid`, mirroring that the code touches only the `order id` column
and the row positions. -/

/-- `range(len(...))` pairing: each element with its index, starting at `i`. -/
def withIdxFrom {α : Type} (i : Nat) : List α → List (Nat × α)
  | [] => []
  | r :: rs => (i, r) :: withIdxFrom (i + 1) rs

section Manifest

variable {ρ : Type} (oid : ρ → String)

/-- `seq_filtered = [oid for oid in order_seq if oid in order_set]`. -/
def seqFiltered (rows : List ρ) (seq : List String) : List String :=
  seq.filter (fun o => (rows.map oid).contains o)

/-- The dict comprehension `{oid: i for i, oid in enumerate(seq_filtered)}`:
later pairs overwrite earlier ones. -/
def rankFun (ps : List (Nat × String)) : String → Option Nat :=
  ps.foldl (fun d p => fun k => if k = p.2 then some p.1 else d k) (fun _ => none)

/-- The `_rank` column: `order_rank.get(x, 10**12)`. -/
def rankOf (rows : List ρ) (seq : List String) (o : String) : Nat :=
  (rankFun (withIdxFrom 0 (seqFiltered oid rows seq)) o).getD (10 ^ 12)

/-- The `sort_values(by=["_rank","_idx"])` comparison. -/
def manifestLe (rows : List ρ) (seq : List String) (p q : Nat × ρ) : Bool :=
  decide (rankOf oid rows seq (oid p.2) < rankOf oid rows seq (oid q.2))
    || (decide (rankOf oid rows seq (oid p.2) = rankOf oid rows seq (oid q.2))
        && decide (p.1 ≤ q.1))

/-- `sorted_df`: the stable sort of the indexed rows by `(_rank, _idx)`. -/
def sortManifest (rows : List ρ) (seq : List String) : List (Nat × ρ) :=
  stableSort (manifestLe oid rows seq) (withIdxFrom 0 rows)

/-- Membership in `multi_ids`: order ids occurring more than once in the
sorted dataset. -/
def isMulti (s : List (Nat × ρ)) (o : String) : Bool :=
  1 < s.countP (fun p => oid p.2 == o)

/-- The dedup loop: keep the first occurrence of each multi-occurrence order
id (tracked in `seen`), keep every row of single-occurrence order ids. -/
def dedupFirst (isM : String → Bool) : List String → List (Nat × ρ) → List (Nat × ρ)
  | _, [] => []
  | seen, p :: ps =>
    if isM (oid p.2) then
      (if seen.contains (oid p.2) then dedupFirst isM seen ps
       else p :: dedupFirst isM (oid p.2 :: seen) ps)
    else p :: dedupFirst isM seen ps

/-- The deduplicated, re-sequenced manifest (still carrying `_idx`). -/
def shippingPairs (rows : List ρ) (seq : List String) : List (Nat × ρ) :=
  dedupFirst oid (isMulti oid (sortManifest oid rows seq)) [] (sortManifest oid rows seq)

/-- The final manifest rows (after dropping the helper columns). -/
def shippingRows (rows : List ρ) (seq : List String) : List ρ :=
  (shippingPairs oid rows seq).map Prod.snd

end Manifest

/-- First-match position in a sequence (what the spec asserts the rank is). -/
def firstMatchRank (seqF : List String) (o : String) : Nat :=
  seqF.findIdx (fun x => x == o)

/-- Last-match position in a sequence (what the rank dictionary computes). -/
def lastMatchRank (seqF : List String) (o : String) : Option Nat :=
  ((withIdxFrom 0 seqF).reverse.find? (fun p => p.2 == o)).map Prod.fst

/-! ### Indexing lemmas -/

theorem withIdxFrom_fst_bound {α : Type} :
    ∀ (i : Nat) (l : List α) (p : Nat × α), p ∈ withIdxFrom i l → i ≤ p.1 ∧ p.1 < i + l.length := by
  intro i l
  induction l generalizing i with
  | nil => intro p hp; exact absurd hp (List.not_mem_nil p)
  | cons r rs ih =>
    intro p hp
    rcases List.mem_cons.mp hp with heq | hp'
    · rw [heq]
      simp only [List.length_cons]
      omega
    · have := ih (i + 1) p hp'
      simp only [List.length_cons]
      omega

theorem withIdxFrom_pairwise_lt {α : Type} :
    ∀ (i : Nat) (l : List α), (withIdxFrom i l).Pairwise (fun p q => p.1 < q.1) := by
  intro i l
  induction l generalizing i with
  | nil => exact List.Pairwise.nil
  | cons r rs ih =>
    refine List.pairwise_cons.mpr ⟨fun q hq => ?_, ih (i + 1)⟩
    have := withIdxFrom_fst_bound (i + 1) rs q hq
    omega

theorem withIdxFrom_map_snd {α : Type} :
    ∀ (i : Nat) (l : List α), (withIdxFrom i l).map Prod.snd = l := by
  intro i l
  induction l generalizing i with
  | nil => rfl
  | cons r rs ih => simp [withIdxFrom, ih]

theorem mem_withIdxFrom_snd {α : Type} {i : Nat} {l : List α} {p : Nat × α}
    (hp : p ∈ withIdxFrom i l) : p.2 ∈ l := by
  have := List.mem_map_of_mem Prod.snd hp
  rw [withIdxFrom_map_snd] at this
  exact this

theorem countP_withIdxFrom {α : Type} (f : α → Bool) :
    ∀ (i : Nat) (l : List α), (withIdxFrom i l).countP (fun p => f p.2) = l.countP f := by
  intro i l
  induction l generalizing i with
  | nil => rfl
  | cons r rs ih => simp [withIdxFrom, List.countP_cons, ih]

theorem exists_withIdxFrom_snd {α : Type} :
    ∀ (i : Nat) (l : List α) (a : α), (∃ p ∈ withIdxFrom i l, p.2 = a) ↔ a ∈ l := by
  intro i l
  induction l generalizing i with
  | nil => intro a; simp [withIdxFrom]
  | cons r rs ih =>
    intro a
    simp only [withIdxFrom, List.mem_cons]
    constructor
    · rintro ⟨p, hp | hp, hpa⟩
      · left
        rw [← hpa, hp]
      · right
        exact (ih (i + 1) a).mp ⟨p, hp, hpa⟩
    · rintro (rfl | ha)
      · exact ⟨(i, a), Or.inl rfl, rfl⟩
      · obtain ⟨p, hp, hpa⟩ := (ih (i + 1) a).mpr ha
        exact ⟨p, Or.inr hp, hpa⟩

/-! ### The rank dictionary computes last-match positions -/

theorem rankFun_eq_find (ps : List (Nat × String)) :
    ∀ o : String, rankFun ps o = (ps.reverse.find? (fun p => p.2 == o)).map Prod.fst := by
  induction ps using List.reverseRecOn with
  | nil => intro o; rfl
  | append_singleton l x ih =>
    intro o
    have hfold : rankFun (l ++ [x]) o
        = (if o = x.2 then some x.1 else rankFun l o) := by
      unfold rankFun
      rw [List.foldl_append]
      rfl
    rw [hfold, List.reverse_append, List.reverse_singleton, List.singleton_append]
    by_cases ho : o = x.2
    · have hpx : (x.2 == o) = true := beq_iff_eq.mpr ho.symm
      have hfind : List.find? (fun p => p.2 == o) (x :: l.reverse) = some x := by
        simp [List.find?, hpx]
      rw [if_pos ho, hfind]
      rfl
    · have hbx : (x.2 == o) = false := by
        rw [beq_eq_false_iff_ne]
        exact fun he => ho he.symm
      have hfind : List.find? (fun p => p.2 == o) (x :: l.reverse)
          = List.find? (fun p => p.2 == o) l.reverse := by
        simp [List.find?, hbx]
      rw [if_neg ho, hfind]
      exact ih o

theorem rankOf_eq {ρ : Type} (oid : ρ → String) (rows : List ρ) (seq : List String)
    (o : String) :
    rankOf oid rows seq o = (lastMatchRank (seqFiltered oid rows seq) o).getD (10 ^ 12) := by
  unfold rankOf lastMatchRank
  rw [rankFun_eq_find]

theorem lastMatchRank_lt_length {seqF : List String} {o : String} {j : Nat}
    (h : lastMatchRank seqF o = some j) : j < seqF.length := by
  unfold lastMatchRank at h
  obtain ⟨p, hp, hpj⟩ := Option.map_eq_some'.mp h
  have hmem := List.mem_of_find?_eq_some hp
  rw [List.mem_reverse] at hmem
  have := withIdxFrom_fst_bound 0 seqF p hmem
  omega

theorem lastMatchRank_isSome_iff (seqF : List String) (o : String) :
    (lastMatchRank seqF o).isSome = true ↔ o ∈ seqF := by
  unfold lastMatchRank
  have hiso : ∀ X : Option (Nat × String), (Option.map Prod.fst X).isSome = X.isSome := by
    intro X
    cases X <;> rfl
  rw [hiso, List.find?_isSome]
  constructor
  · rintro ⟨p, hp, hpo⟩
    rw [List.mem_reverse] at hp
    have := (exists_withIdxFrom_snd 0 seqF o).mp ⟨p, hp, beq_iff_eq.mp hpo⟩
    exact this
  · intro ho
    obtain ⟨p, hp, hpo⟩ := (exists_withIdxFrom_snd 0 seqF o).mpr ho
    exact ⟨p, List.mem_reverse.mpr hp, beq_iff_eq.mpr hpo⟩

theorem rankOf_of_not_mem {ρ : Type} (oid : ρ → String) (rows : List ρ)
    (seq : List String) (o : String) (h : o ∉ seqFiltered oid rows seq) :
    rankOf oid rows seq o = 10 ^ 12 := by
  rw [rankOf_eq]
  cases hl : lastMatchRank (seqFiltered oid rows seq) o with
  | none => rfl
  | some j =>
    exfalso
    apply h
    rw [← lastMatchRank_isSome_iff (seqFiltered oid rows seq) o, hl]
    rfl

theorem rankOf_lt_of_mem {ρ : Type} (oid : ρ → String) (rows : List ρ)
    (seq : List String) (o : String)
    (hlen : (seqFiltered oid rows seq).length ≤ 10 ^ 12)
    (h : o ∈ seqFiltered oid rows seq) :
    rankOf oid rows seq o < 10 ^ 12 := by
  rw [rankOf_eq]
  cases hl : lastMatchRank (seqFiltered oid rows seq) o with
  | none =>
    exfalso
    have := (lastMatchRank_isSome_iff (seqFiltered oid rows seq) o).mpr h
    rw [hl] at this
    exact Bool.noConfusion this
  | some j =>
    have := lastMatchRank_lt_length hl
    show j < 10 ^ 12
    omega

theorem manifestLe_total {ρ : Type} (oid : ρ → String) (rows : List ρ)
    (seq : List String) :
    ∀ p q, manifestLe oid rows seq p q || manifestLe oid rows seq q p := by
  intro p q
  unfold manifestLe
  rcases Nat.lt_trichotomy (rankOf oid rows seq (oid p.2)) (rankOf oid rows seq (oid q.2))
    with h | h | h
  · simp [h]
  · rcases Nat.le_total p.1 q.1 with h2 | h2 <;> simp [h, h2]
  · simp [h]

theorem manifestLe_trans {ρ : Type} (oid : ρ → String) (rows : List ρ)
    (seq : List String) :
    ∀ p q r, manifestLe oid rows seq p q = true → manifestLe oid rows seq q r = true →
      manifestLe oid rows seq p r = true := by
  intro p q r h1 h2
  unfold manifestLe at h1 h2 ⊢
  simp only [Bool.or_eq_true, Bool.and_eq_true, decide_eq_true_eq] at h1 h2 ⊢
  omega

/-- A sorted list splits as the block satisfying `P` followed by the block
failing it, provided no element failing `P` may compare `le` to one
satisfying it. -/
theorem sorted_filter_append {α : Type} (le : α → α → Bool) (P : α → Bool) :
    ∀ l : List α, l.Pairwise (fun a b => le a b = true) →
      (∀ a ∈ l, ∀ b ∈ l, P a = false → P b = true → le a b = false) →
      l = l.filter P ++ l.filter (fun a => !P a) := by
  intro l
  induction l with
  | nil => intro _ _; rfl
  | cons x t ih =>
    intro hp hsep
    rcases List.pairwise_cons.mp hp with ⟨hx, ht⟩
    by_cases hPx : P x = true
    · rw [List.filter_cons_of_pos hPx, List.filter_cons_of_neg (by simp [hPx]),
        List.cons_append]
      congr 1
      exact ih ht (fun a ha b hb =>
        hsep a (List.mem_cons_of_mem x ha) b (List.mem_cons_of_mem x hb))
    · have hPx' : P x = false := Bool.eq_false_iff.mpr hPx
      rw [List.filter_cons_of_neg hPx, List.filter_cons_of_pos (by simp [hPx'])]
      have hfil : t.filter P = [] := by
        rw [List.filter_eq_nil_iff]
        intro b hb hPb
        have hf := hsep x (List.mem_cons_self x t) b (List.mem_cons_of_mem x hb) hPx' hPb
        rw [hx b hb] at hf
        exact Bool.noConfusion hf
      have hfil2 : t.filter (fun a => !P a) = t := by
        rw [List.filter_eq_self]
        intro b hb
        by_cases hPb : P b = true
        · exfalso
          have hf := hsep x (List.mem_cons_self x t) b (List.mem_cons_of_mem x hb) hPx' hPb
          rw [hx b hb] at hf
          exact Bool.noConfusion hf
        · simp [Bool.eq_false_iff.mpr hPb]
      rw [hfil, hfil2, List.nil_append]

theorem contains_iff_mem_str (l : List String) (a : String) :
    l.contains a = true ↔ a ∈ l := by
  induction l with
  | nil => simp
  | cons x xs ih => simp [List.contains_cons, ih, beq_iff_eq]

/-! ## Claim C2 -/

/-- C2 counterexample: with manifest order ids `["B", "A"]` and extracted
sequence `["A", "B", "A"]`, the rank dictionary — a Python dict comprehension
over `enumerate(seq_filtered)`, in which later duplicate keys overwrite
earlier ones — assigns `"A"` rank 2, its last-match position, not its
first-match position 0; consequently the sorted row order is `B, A`, not the
`A, B` that the first-match reading predicts. -/
theorem manifest_rank_counterexample :
    rankOf (fun s => s) ["B", "A"] ["A", "B", "A"] "A" = 2
    ∧ firstMatchRank (seqFiltered (fun s => s) ["B", "A"] ["A", "B", "A"]) "A" = 0
    ∧ rankOf (fun s => s) ["B", "A"] ["A", "B", "A"] "A"
      ≠ firstMatchRank (seqFiltered (fun s => s) ["B", "A"] ["A", "B", "A"]) "A"
    ∧ (sortManifest (fun s => s) ["B", "A"] ["A", "B", "A"]).map Prod.snd = ["B", "A"] := by
  refine ⟨by decide, by decide, by decide, by decide⟩

/-- C2 (amended): each row's rank equals its order_id's last-match position
in the sequence filtered to order ids present in the dataset (the rank
dictionary is built by enumeration, later duplicates overwriting earlier
ones); rows whose order_id is absent from the sequence receive the rank
`10^12`, larger than any real rank (the filtered sequence being at most
`10^12` entries long); and the stable sort by (rank, original row index)
places all unmatched rows after all matched rows while preserving the
unmatched rows' original relative order among themselves. -/
theorem manifest_resequence_amended {ρ : Type} (oid : ρ → String)
    (rows : List ρ) (seq : List String)
    (hlen : (seqFiltered oid rows seq).length ≤ 10 ^ 12) :
    (∀ o : String, rankOf oid rows seq o
      = (lastMatchRank (seqFiltered oid rows seq) o).getD (10 ^ 12))
    ∧ (∀ (o : String) (j : Nat), lastMatchRank (seqFiltered oid rows seq) o = some j →
        j < 10 ^ 12)
    ∧ sortManifest oid rows seq
      = (sortManifest oid rows seq).filter (fun p => seq.contains (oid p.2))
        ++ (sortManifest oid rows seq).filter (fun p => !seq.contains (oid p.2))
    ∧ (sortManifest oid rows seq).filter (fun p => !seq.contains (oid p.2))
      = (withIdxFrom 0 rows).filter (fun p => !seq.contains (oid p.2)) := by
  have hsorted := sorted_stableSort (manifestLe oid rows seq) (manifestLe_total oid rows seq)
    (manifestLe_trans oid rows seq) (withIdxFrom 0 rows)
  have hmemrows : ∀ p : Nat × ρ, p ∈ sortManifest oid rows seq → p.2 ∈ rows :=
    fun p hp => mem_withIdxFrom_snd ((mem_stableSort _ _ _).mp hp)
  have hmatched_iff : ∀ p : Nat × ρ, p.2 ∈ rows →
      (seq.contains (oid p.2) = true ↔ oid p.2 ∈ seqFiltered oid rows seq) := by
    intro p hp
    unfold seqFiltered
    rw [contains_iff_mem_str, List.mem_filter]
    constructor
    · intro hm
      exact ⟨hm, (contains_iff_mem_str _ _).mpr (List.mem_map_of_mem oid hp)⟩
    · intro hm
      exact hm.1
  refine ⟨fun o => rankOf_eq oid rows seq o,
    fun o j hj => by have := lastMatchRank_lt_length hj; omega, ?_, ?_⟩
  · apply sorted_filter_append (manifestLe oid rows seq) _ _ hsorted
    intro a ha b hb hPa hPb
    have hra : rankOf oid rows seq (oid a.2) = 10 ^ 12 := by
      apply rankOf_of_not_mem
      intro hmem
      have hc := (hmatched_iff a (hmemrows a ha)).mpr hmem
      rw [hPa] at hc
      exact Bool.noConfusion hc
    have hrb : rankOf oid rows seq (oid b.2) < 10 ^ 12 :=
      rankOf_lt_of_mem oid rows seq _ hlen ((hmatched_iff b (hmemrows b hb)).mp hPb)
    unfold manifestLe
    rw [hra, decide_eq_false (by omega : ¬ (10 ^ 12 < rankOf oid rows seq (oid b.2))),
      decide_eq_false (by omega : ¬ (10 ^ 12 = rankOf oid rows seq (oid b.2)))]
    rfl
  · have hrankBig : ∀ p : Nat × ρ, p ∈ sortManifest oid rows seq →
        (!seq.contains (oid p.2)) = true → rankOf oid rows seq (oid p.2) = 10 ^ 12 := by
      intro p hp hQ
      apply rankOf_of_not_mem
      intro hmem
      have hc := (hmatched_iff p (hmemrows p hp)).mpr hmem
      rw [hc] at hQ
      exact Bool.noConfusion hQ
    have hpermQ : List.Perm
        ((sortManifest oid rows seq).filter (fun p => !seq.contains (oid p.2)))
        ((withIdxFrom 0 rows).filter (fun p => !seq.contains (oid p.2))) :=
      (stableSort_perm _ _).filter _
    have hA_le : ((sortManifest oid rows seq).filter
        (fun p => !seq.contains (oid p.2))).Pairwise
        (fun p q => manifestLe oid rows seq p q = true) := hsorted.filter _
    have hA_fst_le : ((sortManifest oid rows seq).filter
        (fun p => !seq.contains (oid p.2))).Pairwise (fun p q => p.1 ≤ q.1) := by
      refine List.Pairwise.imp_of_mem ?_ hA_le
      intro a b ha hb hle
      have hra := hrankBig a (List.mem_filter.mp ha).1 (List.mem_filter.mp ha).2
      have hrb := hrankBig b (List.mem_filter.mp hb).1 (List.mem_filter.mp hb).2
      unfold manifestLe at hle
      rw [hra, hrb] at hle
      simpa using hle
    have hA_ne : ((sortManifest oid rows seq).filter
        (fun p => !seq.contains (oid p.2))).Pairwise (fun p q => p.1 ≠ q.1) := by
      have hnodup_w : ((withIdxFrom 0 rows).map Prod.fst).Nodup := by
        have h1 : ((withIdxFrom 0 rows).map Prod.fst).Pairwise (fun a b => a ≠ b) := by
          rw [List.pairwise_map]
          exact (withIdxFrom_pairwise_lt 0 rows).imp (fun h => Nat.ne_of_lt h)
        exact h1
      have hnodup_s : ((sortManifest oid rows seq).map Prod.fst).Nodup :=
        ((stableSort_perm (manifestLe oid rows seq)
          (withIdxFrom 0 rows)).map Prod.fst).nodup_iff.mpr hnodup_w
      have hsub : List.Sublist
          (((sortManifest oid rows seq).filter
            (fun p => !seq.contains (oid p.2))).map Prod.fst)
          ((sortManifest oid rows seq).map Prod.fst) :=
        (List.filter_sublist _).map Prod.fst
      have hnd := hnodup_s.sublist hsub
      exact List.pairwise_map.mp hnd
    have hA_lt : ((sortManifest oid rows seq).filter
        (fun p => !seq.contains (oid p.2))).Pairwise (fun p q => p.1 < q.1) :=
      (hA_fst_le.and hA_ne).imp (fun h => Nat.lt_of_le_of_ne h.1 h.2)
    have hB_lt : ((withIdxFrom 0 rows).filter
        (fun p => !seq.contains (oid p.2))).Pairwise (fun p q => p.1 < q.1) :=
      (withIdxFrom_pairwise_lt 0 rows).filter _
    haveI : IsAntisymm (Nat × ρ) (fun p q => p.1 < q.1) :=
      ⟨fun a b h1 h2 => absurd h2 (Nat.lt_asymm h1)⟩
    exact List.eq_of_perm_of_sorted hpermQ hA_lt hB_lt

/-- Witness for C2 (amended): an order id absent from the sequence gets the
sentinel rank. -/
theorem manifest_resequence_amended_witness :
    rankOf (fun s => s) ["B", "A"] ["A", "B", "A"] "X" = 10 ^ 12 := by
  have h := (manifest_resequence_amended (fun s => s) ["B", "A"] ["A", "B", "A"]
    (by decide)).1 "X"
  rw [h]
  decide

/-! ## Claims C1 and C10 -/

theorem dedupFirst_filter {ρ : Type} (oid : ρ → String) (isM : String → Bool) :
    ∀ (ps : List (Nat × ρ)) (seen : List String) (o : String),
      (dedupFirst oid isM seen ps).filter (fun p => oid p.2 == o)
        = if isM o = true then
            (if seen.contains o = true then []
             else ((ps.filter (fun p => oid p.2 == o)).take 1))
          else ps.filter (fun p => oid p.2 == o) := by
  intro ps
  induction ps with
  | nil =>
    intro seen o
    by_cases h : isM o = true
    · by_cases h2 : seen.contains o = true <;> simp [dedupFirst, h, h2]
    · simp [dedupFirst, h]
  | cons p ps ih =>
    intro seen o
    by_cases hpo : oid p.2 = o
    · subst hpo
      have hskip : ∀ l : List (Nat × ρ),
          (p :: l).filter (fun q => oid q.2 == oid p.2)
            = p :: l.filter (fun q => oid q.2 == oid p.2) :=
        fun l => List.filter_cons_of_pos (by simp)
      rw [dedupFirst]
      by_cases hM : isM (oid p.2) = true
      · rw [if_pos hM]
        by_cases hS : seen.contains (oid p.2) = true
        · have hSm : oid p.2 ∈ seen := (contains_iff_mem_str _ _).mp hS
          rw [if_pos hS, ih seen (oid p.2)]
          simp [hM, hS, hSm]
        · rw [if_neg hS, hskip, ih (oid p.2 :: seen) (oid p.2)]
          have hcs : (oid p.2 :: seen).contains (oid p.2) = true := by
            simp [List.contains_cons]
          rw [if_pos hM, if_pos hcs, if_pos hM, if_neg hS, hskip]
          rfl
      · rw [if_neg hM, hskip, ih seen (oid p.2), if_neg hM, if_neg hM, hskip]
    · have hbf : (oid p.2 == o) = false := by
        rw [beq_eq_false_iff_ne]
        exact hpo
      have hskip : ∀ l : List (Nat × ρ),
          (p :: l).filter (fun q => oid q.2 == o) = l.filter (fun q => oid q.2 == o) :=
        fun l => List.filter_cons_of_neg (by simp [hbf])
      rw [dedupFirst]
      by_cases hM : isM (oid p.2) = true
      · rw [if_pos hM]
        by_cases hS : seen.contains (oid p.2) = true
        · rw [if_pos hS, ih seen o, hskip]
        · rw [if_neg hS, hskip, ih (oid p.2 :: seen) o]
          have hcc : (oid p.2 :: seen).contains o = seen.contains o := by
            rw [List.contains_cons]
            have hob : (o == oid p.2) = false := by
              rw [beq_eq_false_iff_ne]
              exact fun he => hpo he.symm
            rw [hob, Bool.false_or]
          rw [hcc, hskip]
      · rw [if_neg hM, hskip, ih seen o, hskip]

/-- C1: in the sorted manifest dataset, for every order_id occurring more
than once exactly one row survives deduplication, namely the first occurrence
in sorted order; and every order_id occurring exactly once in the sorted
dataset is never dropped. -/
theorem manifest_dedup_spec {ρ : Type} (oid : ρ → String)
    (rows : List ρ) (seq : List String) (o : String) :
    (1 < (sortManifest oid rows seq).countP (fun p => oid p.2 == o) →
      (shippingPairs oid rows seq).filter (fun p => oid p.2 == o)
        = ((sortManifest oid rows seq).filter (fun p => oid p.2 == o)).take 1
      ∧ (shippingPairs oid rows seq).countP (fun p => oid p.2 == o) = 1)
    ∧ ((sortManifest oid rows seq).countP (fun p => oid p.2 == o) = 1 →
      (shippingPairs oid rows seq).filter (fun p => oid p.2 == o)
        = (sortManifest oid rows seq).filter (fun p => oid p.2 == o)) := by
  have hded := dedupFirst_filter oid (isMulti oid (sortManifest oid rows seq))
    (sortManifest oid rows seq) [] o
  constructor
  · intro hcount
    have hmulti : isMulti oid (sortManifest oid rows seq) o = true := by
      unfold isMulti
      exact decide_eq_true hcount
    have hfil : (shippingPairs oid rows seq).filter (fun p => oid p.2 == o)
        = ((sortManifest oid rows seq).filter (fun p => oid p.2 == o)).take 1 := by
      unfold shippingPairs
      rw [hded, if_pos hmulti, if_neg (by simp)]
    refine ⟨hfil, ?_⟩
    rw [List.countP_eq_length_filter, hfil, List.length_take,
      ← List.countP_eq_length_filter]
    omega
  · intro hcount
    have hmulti : isMulti oid (sortManifest oid rows seq) o = false := by
      unfold isMulti
      rw [decide_eq_false_iff_not]
      omega
    unfold shippingPairs
    rw [hded, if_neg (by rw [hmulti]; simp)]

/-- Witness for C1 on a concrete dataset: order id `"A"` occurs twice in the
sorted manifest and is collapsed to its first occurrence; `"B"` occurs once
and is kept. -/
theorem manifest_dedup_spec_witness :
    (1 < (sortManifest (fun s => s) ["A", "A", "B"] ["A", "B"]).countP
        (fun p => p.2 == "A")
      ∧ (shippingPairs (fun s => s) ["A", "A", "B"] ["A", "B"]).filter
          (fun p => p.2 == "A")
        = ((sortManifest (fun s => s) ["A", "A", "B"] ["A", "B"]).filter
            (fun p => p.2 == "A")).take 1)
    ∧ (shippingPairs (fun s => s) ["A", "A", "B"] ["A", "B"]).filter
        (fun p => p.2 == "B")
      = (sortManifest (fun s => s) ["A", "A", "B"] ["A", "B"]).filter
          (fun p => p.2 == "B") :=
  ⟨⟨by decide,
    ((manifest_dedup_spec (fun s => s) ["A", "A", "B"] ["A", "B"] "A").1 (by decide)).1⟩,
    (manifest_dedup_spec (fun s => s) ["A", "A", "B"] ["A", "B"] "B").2 (by decide)⟩

/-- C10: the final re-sequenced, deduplicated manifest contains exactly one
row for each distinct order_id of the input dataset: no order_id is dropped
entirely, none appears in more than one output row, and no other order_id
appears. -/
theorem manifest_one_row_per_order {ρ : Type} (oid : ρ → String)
    (rows : List ρ) (seq : List String) (o : String) :
    (shippingRows oid rows seq).countP (fun r => oid r == o)
      = if o ∈ rows.map oid then 1 else 0 := by
  have hc : (sortManifest oid rows seq).countP (fun p => oid p.2 == o)
      = rows.countP (fun r => oid r == o) := by
    unfold sortManifest
    rw [(stableSort_perm (manifestLe oid rows seq) (withIdxFrom 0 rows)).countP_eq]
    exact countP_withIdxFrom (fun r => oid r == o) 0 rows
  have hmem_iff : o ∈ rows.map oid ↔ 0 < rows.countP (fun r => oid r == o) := by
    rw [List.countP_pos_iff]
    constructor
    · intro hm
      obtain ⟨r, hr, hro⟩ := List.mem_map.mp hm
      exact ⟨r, hr, beq_iff_eq.mpr hro⟩
    · rintro ⟨r, hr, hro⟩
      exact List.mem_map.mpr ⟨r, hr, beq_iff_eq.mp hro⟩
  have hded := dedupFirst_filter oid (isMulti oid (sortManifest oid rows seq))
    (sortManifest oid rows seq) [] o
  have hout : (shippingRows oid rows seq).countP (fun r => oid r == o)
      = ((shippingPairs oid rows seq).filter (fun p => oid p.2 == o)).length := by
    unfold shippingRows
    rw [List.countP_map, ← List.countP_eq_length_filter]
    rfl
  rw [hout]
  unfold shippingPairs
  rw [hded]
  by_cases hmul : isMulti oid (sortManifest oid rows seq) o = true
  · have hgt : 1 < (sortManifest oid rows seq).countP (fun p => oid p.2 == o) := by
      have := hmul
      unfold isMulti at this
      exact of_decide_eq_true this
    rw [if_pos hmul, if_neg (by simp), List.length_take,
      ← List.countP_eq_length_filter]
    rw [if_pos (hmem_iff.mpr (by omega))]
    omega
  · have hnot : ¬ 1 < (sortManifest oid rows seq).countP (fun p => oid p.2 == o) := by
      intro hgt
      apply hmul
      unfold isMulti
      exact decide_eq_true hgt
    have hle : (sortManifest oid rows seq).countP (fun p => oid p.2 == o) ≤ 1 := by
      omega
    rw [if_neg hmul, ← List.countP_eq_length_filter, hc]
    rw [hc] at hle
    by_cases hm : o ∈ rows.map oid
    · rw [if_pos hm]
      have := hmem_iff.mp hm
      omega
    · rw [if_neg hm]
      have : ¬ 0 < rows.countP (fun r => oid r == o) := fun hpos => hm (hmem_iff.mpr hpos)
      omega

end TemuTool
